import Mathlib

/-!
Verification development for the torchrec batched-inference core.

The data model (requests, `KeyedJaggedTensor`, offsets, batch size,
sum-pooled embedding bags) is embedded from `Torchrec_Introduction.ipynb`;
the serving-engine components that the repository only documents
(batching coordinator, worker pool, dispatch router, error taxonomy) are
modelled from the specification, as marked on each definition.
-/

namespace Torchrec

/-- A request: caller-supplied set of named feature lists, each a
variable-length sequence of integer identifiers, plus a request id used
to correlate results. -/
structure Request where
  id : Nat
  features : List (String × List Nat)
  deriving Repr, DecidableEq

/-- The feature-schema of a request: the ordered list of its feature names. -/
def Request.schema (r : Request) : List String :=
  r.features.map Prod.fst

/-- The identifier list a request carries for feature `k`
(empty when the feature is absent). -/
def Request.idsFor (r : Request) (k : String) : List Nat :=
  match r.features.find? (fun p => p.fst == k) with
  | some p => p.snd
  | none => []

/-- `KeyedJaggedTensor` from the notebook: keys, flattened values, and a
lengths tensor with one entry per feature key per example. -/
structure KeyedJaggedTensor where
  keys : List String
  values : List Nat
  lengths : List Nat
  deriving Repr, DecidableEq

/-- Notebook: `batch_size = len(lengths)//len(keys)`. -/
def KeyedJaggedTensor.batchSize (kjt : KeyedJaggedTensor) : Nat :=
  kjt.lengths.length / kjt.keys.length

/-- Notebook: "Offsets is a 1-D tensor where the sequence is a cumulative
sum of the number of values to pool per example"; the jagged offsets
encoding starts at 0 and ends at the total number of values. -/
def offsetsOf (lengths : List Nat) : List Nat :=
  lengths.scanl (· + ·) 0

/-- Build the key-major `KeyedJaggedTensor` minibatch for a batch of
requests, as in the notebook's minibatch cell: values are the per-key
concatenation of every request's identifier list, and lengths hold one
entry per key per request in the same key-major order. -/
def mkKJT (keys : List String) (reqs : List Request) : KeyedJaggedTensor :=
  { keys := keys
    values := (keys.map (fun k => (reqs.map (fun r => r.idsFor k)).flatten)).flatten
    lengths := (keys.map (fun k => reqs.map (fun r => (r.idsFor k).length))).flatten }

/-! ### Basic facts about offsets -/

theorem scanl_add_chain (acc : Nat) (L : List Nat) :
    List.Chain' (· ≤ ·) (L.scanl (· + ·) acc) := by
  induction L generalizing acc with
  | nil =>
    rw [List.scanl_nil]
    simp
  | cons n ns ih =>
    rw [List.scanl_cons, List.singleton_append]
    refine List.chain'_cons'.mpr ⟨?_, ih (acc + n)⟩
    intro y hy
    cases ns with
    | nil =>
      rw [List.scanl_nil] at hy
      simp at hy
      omega
    | cons m ms =>
      rw [List.scanl_cons, List.singleton_append] at hy
      simp at hy
      omega

theorem scanl_add_getLastQ (acc : Nat) (L : List Nat) :
    (L.scanl (· + ·) acc).getLast? = some (acc + L.sum) := by
  induction L generalizing acc with
  | nil => simp
  | cons n ns ih =>
    rw [List.scanl_cons]
    have h2 := ih (acc + n)
    cases hs : List.scanl (· + ·) (acc + n) ns with
    | nil =>
      have : (List.scanl (· + ·) (acc + n) ns).length = ns.length + 1 :=
        List.length_scanl _ _
      rw [hs] at this
      simp at this
    | cons b bs =>
      rw [hs] at h2
      rw [List.singleton_append, List.getLast?_cons_cons, h2]
      simp
      omega

/-! ### Batching coordinator -/

/-- Modelled from the spec: the batching coordinator (absent from the
sources, which only document the inference engine) closes a pending batch
once the accumulated request count reaches the configured maximum batch
size `B`; for a run of requests arriving faster than the maximum wait
timer, the dispatched batches are the successive size-`B` slices of the
submission order. -/
def chunkFuel (B : Nat) : Nat → List α → List (List α)
  | 0, _ => []
  | _, [] => []
  | fuel + 1, x :: xs => (x :: xs).take B :: chunkFuel B fuel ((x :: xs).drop B)

def chunk (B : Nat) (xs : List α) : List (List α) :=
  if B = 0 then [] else chunkFuel B xs.length xs

theorem chunk_nil (B : Nat) : chunk B ([] : List α) = [] := by
  unfold chunk chunkFuel
  split <;> rfl

theorem chunkFuel_flatten (B : Nat) (hB : B ≠ 0) :
    ∀ (fuel : Nat) (xs : List α), xs.length ≤ fuel →
      (chunkFuel B fuel xs).flatten = xs := by
  intro fuel
  induction fuel with
  | zero =>
    intro xs hxs
    rw [List.length_eq_zero.mp (Nat.le_zero.mp hxs)]
    rfl
  | succ n ih =>
    intro xs hxs
    cases xs with
    | nil => rfl
    | cons x rest =>
      simp only [chunkFuel, List.flatten_cons]
      rw [ih ((x :: rest).drop B) (by simp at hxs ⊢; omega)]
      exact List.take_append_drop B (x :: rest)

theorem chunk_flatten (B : Nat) (hB : B ≠ 0) (xs : List α) :
    (chunk B xs).flatten = xs := by
  unfold chunk
  rw [if_neg hB]
  exact chunkFuel_flatten B hB xs.length xs le_rfl

theorem ceil_div_step (B len : Nat) (hB : 0 < B) (hlen : 0 < len) :
    (len + B - 1) / B = (len - B + B - 1) / B + 1 := by
  rcases le_or_lt len B with h | h
  · have h0 : len - B = 0 := by omega
    rw [h0]
    have hz : (0 + B - 1) / B = 0 := Nat.div_eq_of_lt (by omega)
    rw [hz]
    have e : len + B - 1 = (len - 1) + B := by omega
    rw [e, Nat.add_div_right _ hB, Nat.div_eq_of_lt (by omega)]
  · have e1 : len + B - 1 = (len - 1) + B := by omega
    have e2 : len - B + B - 1 = (len - B - 1) + B := by omega
    have e3 : len - 1 = (len - B - 1) + B := by omega
    rw [e1, Nat.add_div_right _ hB, e2, Nat.add_div_right _ hB, e3,
      Nat.add_div_right _ hB]

theorem chunkFuel_length (B : Nat) (hB : B ≠ 0) :
    ∀ (fuel : Nat) (xs : List α), xs.length ≤ fuel →
      (chunkFuel B fuel xs).length = (xs.length + B - 1) / B := by
  intro fuel
  induction fuel with
  | zero =>
    intro xs hxs
    rw [List.length_eq_zero.mp (Nat.le_zero.mp hxs)]
    have : (0 + B - 1) / B = 0 := Nat.div_eq_of_lt (by omega)
    simpa using this.symm
  | succ n ih =>
    intro xs hxs
    cases xs with
    | nil =>
      have : (0 + B - 1) / B = 0 := Nat.div_eq_of_lt (by omega)
      simpa [chunkFuel] using this.symm
    | cons x rest =>
      simp only [chunkFuel, List.length_cons]
      rw [ih ((x :: rest).drop B) (by simp at hxs ⊢; omega)]
      rw [List.length_drop, List.length_cons]
      exact (ceil_div_step B (rest.length + 1) (by omega) (by omega)).symm

theorem chunk_length_eq (B : Nat) (hB : B ≠ 0) (xs : List α) :
    (chunk B xs).length = (xs.length + B - 1) / B := by
  unfold chunk
  rw [if_neg hB]
  exact chunkFuel_length B hB xs.length xs le_rfl

theorem chunkFuel_size_le (B : Nat) :
    ∀ (fuel : Nat) (xs : List α), ∀ c ∈ chunkFuel B fuel xs, c.length ≤ B := by
  intro fuel
  induction fuel with
  | zero =>
    intro xs c hc
    simp [chunkFuel] at hc
  | succ n ih =>
    intro xs c hc
    cases xs with
    | nil => simp [chunkFuel] at hc
    | cons x rest =>
      simp only [chunkFuel] at hc
      rcases List.mem_cons.mp hc with rfl | hc'
      · simp
      · exact ih ((x :: rest).drop B) c hc'

theorem chunk_size_le (B : Nat) (xs : List α) :
    ∀ c ∈ chunk B xs, c.length ≤ B := by
  intro c hc
  unfold chunk at hc
  by_cases hB : B = 0
  · rw [if_pos hB] at hc
    simp at hc
  · rw [if_neg hB] at hc
    exact chunkFuel_size_le B xs.length xs c hc

theorem chunk_mem_of_mem (B : Nat) (xs : List α) (c : List α) (x : α)
    (hc : c ∈ chunk B xs) (hx : x ∈ c) : x ∈ xs := by
  have hB : B ≠ 0 := by
    intro h
    subst h
    unfold chunk at hc
    simp at hc
  have := chunk_flatten B hB xs
  rw [← this]
  exact List.mem_flatten.mpr ⟨c, hc, hx⟩

/-- Modelled from the spec: requests with heterogeneous feature sets are
grouped by schema before batching; each distinct schema (in first-seen
order) collects, in submission order, the requests carrying it. -/
def schemaGroups (reqs : List Request) : List (List String × List Request) :=
  ((reqs.map Request.schema).dedup).map
    (fun s => (s, reqs.filter (fun r => r.schema == s)))

/-- Modelled from the spec: the stream of feature batches the coordinator
dispatches — per schema group, the successive maximal size-`B` slices. -/
def coordinatorBatches (B : Nat) (reqs : List Request) :
    List (List String × List Request) :=
  ((schemaGroups reqs).map (fun g => (chunk B g.snd).map (fun b => (g.fst, b)))).flatten

theorem coordinatorBatches_schema (B : Nat) (reqs : List Request)
    (batch : List String × List Request) (hb : batch ∈ coordinatorBatches B reqs) :
    ∀ r ∈ batch.snd, r.schema = batch.fst := by
  intro r hr
  obtain ⟨inner, hinner, hbatch⟩ := List.mem_flatten.mp hb
  obtain ⟨g, hg, rfl⟩ := List.mem_map.mp hinner
  obtain ⟨b, hbc, rfl⟩ := List.mem_map.mp hbatch
  obtain ⟨s, _, rfl⟩ := List.mem_map.mp hg
  have hrg : r ∈ reqs.filter (fun r => r.schema == s) :=
    chunk_mem_of_mem B _ b r hbc hr
  have := (List.mem_filter.mp hrg).2
  simpa using this

/-! ### KeyedJaggedTensor size facts -/

theorem map_length_eq_replicate {β γ : Type} (keys : List β) (g : β → List γ)
    (m : Nat) (h : ∀ k, (g k).length = m) :
    (keys.map g).map List.length = List.replicate keys.length m := by
  induction keys with
  | nil => rfl
  | cons k ks ih =>
    simp [h, ih]
    rfl

theorem mkKJT_lengths_length (keys : List String) (reqs : List Request) :
    (mkKJT keys reqs).lengths.length = keys.length * reqs.length := by
  unfold mkKJT
  rw [List.length_flatten]
  rw [map_length_eq_replicate keys _ reqs.length (fun k => by simp)]
  simp [List.sum_replicate]

theorem mkKJT_batchSize (keys : List String) (reqs : List Request)
    (hkeys : keys ≠ []) : (mkKJT keys reqs).batchSize = reqs.length := by
  unfold KeyedJaggedTensor.batchSize
  have hk : (mkKJT keys reqs).keys = keys := rfl
  rw [hk, mkKJT_lengths_length]
  have hpos : 0 < keys.length := List.length_pos.mpr hkeys
  exact Nat.mul_div_cancel_left _ hpos

theorem flatten_idsFor_length (reqs : List Request) (k : String) :
    ((reqs.map (fun r => r.idsFor k)).flatten).length
      = (reqs.map (fun r => (r.idsFor k).length)).sum := by
  rw [List.length_flatten, List.map_map]
  rfl

theorem mkKJT_values_length (keys : List String) (reqs : List Request) :
    (mkKJT keys reqs).values.length = (mkKJT keys reqs).lengths.sum := by
  unfold mkKJT
  induction keys with
  | nil => rfl
  | cons k ks ih =>
    simp only [List.map_cons, List.flatten_cons, List.length_append,
      List.sum_append]
    rw [ih, flatten_idsFor_length]

/-! ### Sum-pooled embedding bags (notebook `EmbeddingBag`, pooling SUM) -/

/-- The all-zero dense row of width `dim`. -/
def zeroVec (dim : Nat) : List Int :=
  List.replicate dim 0

/-- Elementwise addition of dense rows. -/
def addVec (u v : List Int) : List Int :=
  List.zipWith (· + ·) u v

/-- Modelled from the spec: sum-pooling of one bag of embedding rows, the
`PoolingType.SUM` semantics of the notebook's `EmbeddingBag`: the rows of
the looked-up identifiers are summed; an empty bag pools to the zero row. -/
def sumBag (emb : Nat → List Int) (dim : Nat) (ids : List Nat) : List Int :=
  (ids.map emb).foldl addVec (zeroVec dim)

/-- Split a flat list into consecutive segments of the given lengths
(the jagged decoding described by the notebook's offsets/lengths text). -/
def segmentBy : List Nat → List α → List (List α)
  | [], _ => []
  | n :: ns, xs => xs.take n :: segmentBy ns (xs.drop n)

theorem segmentBy_flatten (L : List (List α)) :
    segmentBy (L.map List.length) L.flatten = L := by
  induction L with
  | nil => rfl
  | cons l ls ih =>
    simp only [List.map_cons, List.flatten_cons, segmentBy]
    rw [List.take_left, List.drop_left, ih]

/-- Modelled from the spec: the notebook's `EmbeddingBag` applied to a
flat input and per-bag lengths — each length-delimited segment of the
input is sum-pooled into one output row. -/
def embeddingBag (emb : Nat → List Int) (dim : Nat)
    (input : List Nat) (lengths : List Nat) : List (List Int) :=
  (segmentBy lengths input).map (sumBag emb dim)

/-- Decode the key-major lengths tensor of a KJT into one per-key block of
`batchSize` per-example lengths. -/
def KeyedJaggedTensor.lengthsPerKey (kjt : KeyedJaggedTensor) : List (List Nat) :=
  segmentBy (List.replicate kjt.keys.length kjt.batchSize) kjt.lengths

/-- Decode the flattened values tensor of a KJT into one per-key block. -/
def KeyedJaggedTensor.valuesPerKey (kjt : KeyedJaggedTensor) : List (List Nat) :=
  segmentBy (kjt.lengthsPerKey.map List.sum) kjt.values

/-- Modelled from the spec: one forward pass of the pooled embedding-bag
collection over a KJT minibatch — for each feature key, a dense matrix of
`batchSize` sum-pooled rows (the notebook's `model(mb)` returning a
`KeyedTensor` of `batch_size x embedding_dim` tensors per key). -/
def modelForward (emb : String → Nat → List Int) (dim : Nat)
    (kjt : KeyedJaggedTensor) : List (String × List (List Int)) :=
  (kjt.keys.zip (kjt.lengthsPerKey.zip kjt.valuesPerKey)).map
    (fun p => (p.fst, embeddingBag (emb p.fst) dim p.snd.snd p.snd.fst))

theorem mkKJT_lengthsPerKey (keys : List String) (reqs : List Request)
    (hkeys : keys ≠ []) :
    (mkKJT keys reqs).lengthsPerKey
      = keys.map (fun k => reqs.map (fun r => (r.idsFor k).length)) := by
  unfold KeyedJaggedTensor.lengthsPerKey
  have hk : (mkKJT keys reqs).keys = keys := rfl
  rw [hk, mkKJT_batchSize keys reqs hkeys]
  have hrep : List.replicate keys.length reqs.length
      = ((keys.map (fun k => reqs.map (fun r => (r.idsFor k).length))).map
          List.length) := by
    rw [map_length_eq_replicate keys _ reqs.length (fun k => by simp)]
  rw [hrep]
  have hl : (mkKJT keys reqs).lengths
      = (keys.map (fun k => reqs.map (fun r => (r.idsFor k).length))).flatten := rfl
  rw [hl]
  exact segmentBy_flatten _

theorem mkKJT_valuesPerKey (keys : List String) (reqs : List Request)
    (hkeys : keys ≠ []) :
    (mkKJT keys reqs).valuesPerKey
      = keys.map (fun k => (reqs.map (fun r => r.idsFor k)).flatten) := by
  unfold KeyedJaggedTensor.valuesPerKey
  rw [mkKJT_lengthsPerKey keys reqs hkeys]
  have hsum : (keys.map (fun k => reqs.map (fun r => (r.idsFor k).length))).map
        List.sum
      = ((keys.map (fun k => (reqs.map (fun r => r.idsFor k)).flatten)).map
          List.length) := by
    rw [List.map_map, List.map_map]
    refine List.map_congr_left ?_
    intro k _
    simp only [Function.comp]
    exact (flatten_idsFor_length reqs k).symm
  rw [hsum]
  have hv : (mkKJT keys reqs).values
      = (keys.map (fun k => (reqs.map (fun r => r.idsFor k)).flatten)).flatten := rfl
  rw [hv]
  exact segmentBy_flatten _

theorem modelForward_mkKJT (emb : String → Nat → List Int) (dim : Nat)
    (keys : List String) (reqs : List Request) (hkeys : keys ≠ []) :
    modelForward emb dim (mkKJT keys reqs)
      = keys.map (fun k =>
          (k, reqs.map (fun r => sumBag (emb k) dim (r.idsFor k)))) := by
  unfold modelForward
  rw [mkKJT_lengthsPerKey keys reqs hkeys, mkKJT_valuesPerKey keys reqs hkeys]
  have hk : (mkKJT keys reqs).keys = keys := rfl
  rw [hk, List.zip_map']
  nth_rewrite 1 [← List.map_id' keys]
  rw [List.zip_map', List.map_map]
  refine List.map_congr_left ?_
  intro k _
  simp only [Function.comp, id]
  unfold embeddingBag
  have hseg : segmentBy (reqs.map (fun r => (r.idsFor k).length))
        ((reqs.map (fun r => r.idsFor k)).flatten)
      = reqs.map (fun r => r.idsFor k) := by
    have := segmentBy_flatten (reqs.map (fun r => r.idsFor k))
    rw [List.map_map] at this
    exact this
  rw [hseg, List.map_map]
  rfl

/-! ### Dispatch router: splitting the dense output back per request -/

/-- One per-request result: the request id it answers, and one dense row
per output feature name. -/
structure ResultRow where
  requestId : Nat
  outputs : List (String × List Int)
  deriving Repr, DecidableEq

/-- Modelled from the spec: the dispatch router walks the requests of the
batch in submission order and pairs request `i` with row `i` of each
output tensor. -/
def routeAux (fwd : List (String × List (List Int))) :
    Nat → List Request → List ResultRow
  | _, [] => []
  | i, r :: rs =>
    { requestId := r.id
      outputs := fwd.map (fun kv => (kv.fst, kv.snd.getD i [])) }
      :: routeAux fwd (i + 1) rs

/-- Modelled from the spec: demultiplex the forward output into one
`ResultRow` per request, preserving batch order. -/
def routeResults (reqs : List Request)
    (fwd : List (String × List (List Int))) : List ResultRow :=
  routeAux fwd 0 reqs

/-- Modelled from the spec: end-to-end execution of one feature batch —
encode the requests as a KJT minibatch, run the pooled forward pass, and
split the dense outputs back into per-request results. -/
def executeBatch (emb : String → Nat → List Int) (dim : Nat)
    (keys : List String) (reqs : List Request) : List ResultRow :=
  routeResults reqs (modelForward emb dim (mkKJT keys reqs))

theorem routeAux_length (fwd : List (String × List (List Int)))
    (i : Nat) (rs : List Request) : (routeAux fwd i rs).length = rs.length := by
  induction rs generalizing i with
  | nil => rfl
  | cons r rs ih => simp [routeAux, ih]

theorem routeAux_get (fwd : List (String × List (List Int)))
    (i : Nat) (rs : List Request) (j : Nat) (hj : j < rs.length)
    (hj2 : j < (routeAux fwd i rs).length) :
    (routeAux fwd i rs).get ⟨j, hj2⟩
      = { requestId := (rs.get ⟨j, hj⟩).id
          outputs := fwd.map (fun kv => (kv.fst, kv.snd.getD (i + j) [])) } := by
  induction rs generalizing i j with
  | nil => exact absurd hj (by simp)
  | cons r rs ih =>
    cases j with
    | zero => rfl
    | succ j' =>
      have hj' : j' < rs.length := by simpa using hj
      have hj2' : j' < (routeAux fwd (i + 1) rs).length := by
        rw [routeAux_length]; exact hj'
      have := ih (i + 1) j' hj' hj2'
      simp only [routeAux, List.get_cons_succ]
      rw [this]
      have : i + 1 + j' = i + (j' + 1) := by omega
      rw [this]

theorem result_length (emb : String → Nat → List Int) (dim : Nat)
    (keys : List String) (reqs : List Request) :
    (executeBatch emb dim keys reqs).length = reqs.length := by
  unfold executeBatch routeResults
  exact routeAux_length _ 0 reqs

/-! ### Worker pool state machine -/

/-- Modelled from the spec: worker liveness states
`Starting → Ready ⇄ Busy → Ready`, `→ Failed` on load or timeout error,
`Ready → Draining` on graceful shutdown. -/
inductive Liveness where
  | Starting
  | Ready
  | Busy
  | Draining
  | Failed
  deriving Repr, DecidableEq

/-- Modelled from the spec: a worker handle — device id, liveness state,
and the current in-flight batch (at most one, hence an `Option`). -/
structure WorkerHandle where
  device : Nat
  liveness : Liveness
  inflight : Option Nat
  deriving Repr, DecidableEq

/-- Modelled from the spec: the pool-visible events of a worker's life —
replica load success/failure, batch dispatch, completion, execution
timeout, and graceful drain. -/
inductive PoolEvent where
  | loadOk (w : Nat)
  | loadFail (w : Nat)
  | dispatch (w : Nat) (b : Nat)
  | complete (w : Nat)
  | timeout (w : Nat)
  | drain (w : Nat)
  deriving Repr, DecidableEq

/-- Modelled from the spec: the worker-pool transition function. Events
whose preconditions do not hold leave the pool unchanged; `dispatch`
assigns a batch only to a `Ready` worker with no in-flight batch;
`timeout` marks the worker `Failed` but keeps it in the pool. -/
def step (p : List WorkerHandle) (e : PoolEvent) : List WorkerHandle :=
  match e with
  | .loadOk w =>
    match p[w]? with
    | some wk =>
      if wk.liveness = .Starting then p.set w { wk with liveness := .Ready } else p
    | none => p
  | .loadFail w =>
    match p[w]? with
    | some wk =>
      if wk.liveness = .Starting then p.set w { wk with liveness := .Failed } else p
    | none => p
  | .dispatch w b =>
    match p[w]? with
    | some wk =>
      if wk.liveness = .Ready ∧ wk.inflight = none then
        p.set w { wk with liveness := .Busy, inflight := some b }
      else p
    | none => p
  | .complete w =>
    match p[w]? with
    | some wk =>
      if wk.liveness = .Busy then
        p.set w { wk with liveness := .Ready, inflight := none }
      else p
    | none => p
  | .timeout w =>
    match p[w]? with
    | some wk =>
      if wk.liveness = .Busy then
        p.set w { wk with liveness := .Failed, inflight := none }
      else p
    | none => p
  | .drain w =>
    match p[w]? with
    | some wk =>
      if wk.liveness = .Ready then p.set w { wk with liveness := .Draining } else p
    | none => p

/-- Modelled from the spec: pool startup creates one worker per required
device, each `Starting` with no in-flight batch. -/
def initPool (devices : List Nat) : List WorkerHandle :=
  devices.map (fun d => { device := d, liveness := .Starting, inflight := none })

/-- Run the pool from a state through a sequence of events. -/
def run (p : List WorkerHandle) (es : List PoolEvent) : List WorkerHandle :=
  es.foldl step p

/-- The single-batch discipline on one worker: it is `Busy` exactly while
it holds an in-flight batch. -/
def WorkerInv (wk : WorkerHandle) : Prop :=
  wk.liveness = .Busy ↔ wk.inflight ≠ none

instance (wk : WorkerHandle) : Decidable (WorkerInv wk) := by
  unfold WorkerInv
  infer_instance

/-- Modelled from the spec: `acquire` returns (the index of) the first
`Ready` worker, if any. -/
def acquire : List WorkerHandle → Option Nat
  | [] => none
  | wk :: ws =>
    if wk.liveness = .Ready then some 0 else (acquire ws).map (· + 1)

theorem acquire_ready (p : List WorkerHandle) (i : Nat) (h : acquire p = some i) :
    ∃ hlt : i < p.length, (p.get ⟨i, hlt⟩).liveness = .Ready := by
  induction p generalizing i with
  | nil => simp [acquire] at h
  | cons wk ws ih =>
    unfold acquire at h
    by_cases hr : wk.liveness = .Ready
    · rw [if_pos hr] at h
      have : i = 0 := by simpa using h.symm
      subst this
      exact ⟨by simp, hr⟩
    · rw [if_neg hr] at h
      cases hacq : acquire ws with
      | none => rw [hacq] at h; simp at h
      | some j =>
        rw [hacq] at h
        simp at h
        obtain ⟨hlt, hready⟩ := ih j hacq
        refine ⟨by simp; omega, ?_⟩
        have : (wk :: ws).get ⟨i, by simp; omega⟩ = ws.get ⟨j, hlt⟩ := by
          subst h
          rfl
        rw [this]
        exact hready

theorem step_preserves_inv (p : List WorkerHandle) (e : PoolEvent)
    (hp : ∀ wk ∈ p, WorkerInv wk) : ∀ wk ∈ step p e, WorkerInv wk := by
  intro wk hwk
  have hset : ∀ (w : Nat) (nw : WorkerHandle), WorkerInv nw →
      wk ∈ p.set w nw → WorkerInv wk := by
    intro w nw hnw hmem
    rcases List.mem_or_eq_of_mem_set hmem with hin | rfl
    · exact hp wk hin
    · exact hnw
  cases e with
  | loadOk w =>
    simp only [step] at hwk
    cases hw : p[w]? with
    | none => simp only [hw] at hwk; exact hp wk hwk
    | some old =>
      simp only [hw] at hwk
      by_cases hl : old.liveness = .Starting
      · rw [if_pos hl] at hwk
        refine hset w _ ?_ hwk
        have hold : WorkerInv old := hp old (List.getElem?_mem hw)
        unfold WorkerInv at hold ⊢
        simp only []
        constructor
        · intro hb; exact absurd hb (by simp)
        · intro hi
          exact absurd (hold.mpr hi) (by rw [hl]; simp)
      · rw [if_neg hl] at hwk; exact hp wk hwk
  | loadFail w =>
    simp only [step] at hwk
    cases hw : p[w]? with
    | none => simp only [hw] at hwk; exact hp wk hwk
    | some old =>
      simp only [hw] at hwk
      by_cases hl : old.liveness = .Starting
      · rw [if_pos hl] at hwk
        refine hset w _ ?_ hwk
        have hold : WorkerInv old := hp old (List.getElem?_mem hw)
        unfold WorkerInv at hold ⊢
        constructor
        · intro hb; exact absurd hb (by simp)
        · intro hi
          exact absurd (hold.mpr hi) (by rw [hl]; simp)
      · rw [if_neg hl] at hwk; exact hp wk hwk
  | dispatch w b =>
    simp only [step] at hwk
    cases hw : p[w]? with
    | none => simp only [hw] at hwk; exact hp wk hwk
    | some old =>
      simp only [hw] at hwk
      by_cases hl : old.liveness = .Ready ∧ old.inflight = none
      · rw [if_pos hl] at hwk
        refine hset w _ ?_ hwk
        unfold WorkerInv
        simp
      · rw [if_neg hl] at hwk; exact hp wk hwk
  | complete w =>
    simp only [step] at hwk
    cases hw : p[w]? with
    | none => simp only [hw] at hwk; exact hp wk hwk
    | some old =>
      simp only [hw] at hwk
      by_cases hl : old.liveness = .Busy
      · rw [if_pos hl] at hwk
        refine hset w _ ?_ hwk
        unfold WorkerInv
        simp
      · rw [if_neg hl] at hwk; exact hp wk hwk
  | timeout w =>
    simp only [step] at hwk
    cases hw : p[w]? with
    | none => simp only [hw] at hwk; exact hp wk hwk
    | some old =>
      simp only [hw] at hwk
      by_cases hl : old.liveness = .Busy
      · rw [if_pos hl] at hwk
        refine hset w _ ?_ hwk
        unfold WorkerInv
        simp
      · rw [if_neg hl] at hwk; exact hp wk hwk
  | drain w =>
    simp only [step] at hwk
    cases hw : p[w]? with
    | none => simp only [hw] at hwk; exact hp wk hwk
    | some old =>
      simp only [hw] at hwk
      by_cases hl : old.liveness = .Ready
      · rw [if_pos hl] at hwk
        refine hset w _ ?_ hwk
        have hold : WorkerInv old := hp old (List.getElem?_mem hw)
        unfold WorkerInv at hold ⊢
        constructor
        · intro hb; exact absurd hb (by simp)
        · intro hi
          exact absurd (hold.mpr hi) (by rw [hl]; simp)
      · rw [if_neg hl] at hwk; exact hp wk hwk

theorem run_preserves_inv (p : List WorkerHandle) (es : List PoolEvent)
    (hp : ∀ wk ∈ p, WorkerInv wk) : ∀ wk ∈ run p es, WorkerInv wk := by
  induction es generalizing p with
  | nil => exact hp
  | cons e es ih => exact ih (step p e) (step_preserves_inv p e hp)

theorem initPool_inv (devices : List Nat) : ∀ wk ∈ initPool devices, WorkerInv wk := by
  intro wk hwk
  obtain ⟨d, _, rfl⟩ := List.mem_map.mp hwk
  unfold WorkerInv
  simp

theorem result_row (emb : String → Nat → List Int) (dim : Nat)
    (keys : List String) (reqs : List Request) (hkeys : keys ≠ [])
    (i : Nat) (h : i < reqs.length)
    (h2 : i < (executeBatch emb dim keys reqs).length) :
    (executeBatch emb dim keys reqs).get ⟨i, h2⟩
      = { requestId := (reqs.get ⟨i, h⟩).id
          outputs := keys.map (fun k =>
            (k, sumBag (emb k) dim ((reqs.get ⟨i, h⟩).idsFor k))) } := by
  unfold executeBatch routeResults at h2 ⊢
  rw [routeAux_get _ 0 reqs i h h2]
  have houts : (modelForward emb dim (mkKJT keys reqs)).map
        (fun kv => (kv.fst, kv.snd.getD (0 + i) []))
      = keys.map (fun k =>
          (k, sumBag (emb k) dim ((reqs.get ⟨i, h⟩).idsFor k))) := by
    rw [modelForward_mkKJT emb dim keys reqs hkeys, List.map_map]
    refine List.map_congr_left ?_
    intro k _
    simp only [Function.comp]
    congr 1
    have hlen : 0 + i
        < (reqs.map (fun r => sumBag (emb k) dim (r.idsFor k))).length := by
      simpa using h
    rw [List.getD_eq_getElem _ _ hlen]
    simp
  rw [houts]

/-! ### Error taxonomy and batch settlement -/

/-- Modelled from the spec: the error taxonomy of §7. -/
inductive ErrorKind where
  | artifactLoad
  | placementMismatch
  | batchTimeout
  | execution
  | poolExhausted
  | queueFull
  deriving Repr, DecidableEq

/-- Modelled from the spec: `PoolExhaustedError` and `QueueFullError` are
surfaced to the caller as retryable; the rest are hard failures. -/
def ErrorKind.retryable : ErrorKind → Bool
  | .poolExhausted => true
  | .queueFull => true
  | _ => false

/-- Modelled from the spec: `QueueFullError` carries an explicit
"overloaded" kind distinct from hard failures. -/
def ErrorKind.overloaded : ErrorKind → Bool
  | .queueFull => true
  | _ => false

/-- Modelled from the spec: the single outcome a request future resolves
to — exactly one `Result` or exactly one error. -/
inductive ReqOutcome where
  | ok (row : ResultRow)
  | err (k : ErrorKind)
  deriving Repr, DecidableEq

/-- Modelled from the spec: how one batch execution ends at the worker. -/
inductive ExecOutcome where
  | success
  | execError
  | timedOut
  deriving Repr, DecidableEq

/-- Modelled from the spec: resolve every request future of a batch —
on success, one result per request in batch order; a batch-level failure
fans out to every request future with the same error kind (timeouts as
`batchTimeout`, execution failures as `execution`). -/
def settleBatch (emb : String → Nat → List Int) (dim : Nat)
    (keys : List String) (reqs : List Request) (out : ExecOutcome) :
    List (Nat × ReqOutcome) :=
  match out with
  | .success =>
    (executeBatch emb dim keys reqs).map (fun row => (row.requestId, .ok row))
  | .execError => reqs.map (fun r => (r.id, .err .execution))
  | .timedOut => reqs.map (fun r => (r.id, .err .batchTimeout))

theorem routeAux_map_requestId (fwd : List (String × List (List Int)))
    (i : Nat) (rs : List Request) :
    (routeAux fwd i rs).map ResultRow.requestId = rs.map Request.id := by
  induction rs generalizing i with
  | nil => rfl
  | cons r rs ih => simp [routeAux, ih]

theorem settleBatch_ids (emb : String → Nat → List Int) (dim : Nat)
    (keys : List String) (reqs : List Request) (out : ExecOutcome) :
    (settleBatch emb dim keys reqs out).map Prod.fst = reqs.map Request.id := by
  cases out with
  | success =>
    simp only [settleBatch]
    rw [List.map_map]
    have : (Prod.fst ∘ fun row : ResultRow => (row.requestId, ReqOutcome.ok row))
        = ResultRow.requestId := rfl
    rw [this]
    unfold executeBatch routeResults
    exact routeAux_map_requestId _ 0 reqs
  | execError =>
    simp only [settleBatch]
    rw [List.map_map]
    rfl
  | timedOut =>
    simp only [settleBatch]
    rw [List.map_map]
    rfl

theorem filter_key_count {β : Type} (l : List (Nat × β)) (a : Nat)
    (hnd : (l.map Prod.fst).Nodup) (ha : a ∈ l.map Prod.fst) :
    (l.filter (fun p => p.fst == a)).length = 1 := by
  induction l with
  | nil => simp at ha
  | cons p l ih =>
    simp only [List.map_cons, List.nodup_cons] at hnd
    rcases List.mem_cons.mp ha with heq | hmem
    · subst heq
      rw [List.filter_cons_of_pos (by simp)]
      have hnone : l.filter (fun q => q.fst == p.fst) = [] := by
        refine List.filter_eq_nil_iff.mpr ?_
        intro q hq
        simp only [beq_iff_eq]
        intro hcontra
        exact hnd.1 (hcontra ▸ List.mem_map_of_mem Prod.fst hq)
      simp [hnone]
    · have hne : p.fst ≠ a := by
        intro hcontra
        exact hnd.1 (hcontra ▸ hmem)
      rw [List.filter_cons_of_neg (by simpa using hne)]
      exact ih hnd.2 hmem

/-! ### Bounded dispatch queue -/

/-- Modelled from the spec: the bounded dispatch queue in front of the
worker pool — a static capacity and the batches currently held. -/
structure DispatchQueue where
  capacity : Nat
  pending : List (List Request)
  deriving Repr, DecidableEq

/-- Modelled from the spec: the outcome of offering a newly closed batch
to the dispatch queue. -/
inductive EnqueueResult where
  | accepted (q : DispatchQueue)
  | rejected (k : ErrorKind)
  deriving Repr, DecidableEq

/-- Modelled from the spec: a newly closed batch joins the queue while
there is room; at capacity it is rejected immediately with
`QueueFullError` rather than growing the queue unboundedly. -/
def enqueueBatch (q : DispatchQueue) (b : List Request) : EnqueueResult :=
  if q.pending.length < q.capacity then
    .accepted { q with pending := q.pending ++ [b] }
  else .rejected .queueFull

theorem coordinatorBatches_size_le (B : Nat) (reqs : List Request) :
    ∀ batch ∈ coordinatorBatches B reqs, batch.snd.length ≤ B := by
  intro batch hb
  obtain ⟨inner, hinner, hbatch⟩ := List.mem_flatten.mp hb
  obtain ⟨g, _, rfl⟩ := List.mem_map.mp hinner
  obtain ⟨b, hbc, rfl⟩ := List.mem_map.mp hbatch
  exact chunk_size_le B g.snd b hbc

theorem step_timeout_eq (p : List WorkerHandle) (w : Nat) (hw : w < p.length)
    (hbusy : (p.get ⟨w, hw⟩).liveness = .Busy) :
    step p (.timeout w)
      = p.set w { p.get ⟨w, hw⟩ with liveness := .Failed, inflight := none } := by
  simp only [List.get_eq_getElem] at hbusy ⊢
  simp only [step, List.getElem?_eq_getElem hw]
  rw [if_pos hbusy]

/-! ### Concrete scenario data -/

/-- The spec's three-request scenario: feature `product` with identifier
lists `[101, 202]`, `[]`, `[303]` (notebook's `product_eb` example). -/
def introReq1 : Request :=
  { id := 1, features := [("product", [101, 202])] }

def introReq2 : Request :=
  { id := 2, features := [("product", [])] }

def introReq3 : Request :=
  { id := 3, features := [("product", [303])] }

def introBatchRequests : List Request :=
  [introReq1, introReq2, introReq3]

/-- A small concrete embedding table for witnesses: identifier `n` embeds
to the one-dimensional row `[n]`. -/
def introEmb : String → Nat → List Int :=
  fun _ n => [(n : Int)]

/-- The notebook's two-feature minibatch: three examples with `product`
lists `[101,202], [], [303]` and `user` lists `[404], [505], [606]`. -/
def nbReq1 : Request :=
  { id := 1, features := [("product", [101, 202]), ("user", [404])] }

def nbReq2 : Request :=
  { id := 2, features := [("product", []), ("user", [505])] }

def nbReq3 : Request :=
  { id := 3, features := [("product", [303]), ("user", [606])] }

def nbRequests : List Request :=
  [nbReq1, nbReq2, nbReq3]

/-- The KJT built from the notebook's three examples agrees with the
notebook's explicit minibatch: values `[101,202,303,404,505,606]` and
lengths `[2,0,1,1,1,1]`. -/
theorem mkKJT_notebook_minibatch :
    mkKJT ["product", "user"] nbRequests
      = { keys := ["product", "user"]
          values := [101, 202, 303, 404, 505, 606]
          lengths := [2, 0, 1, 1, 1, 1] } := by
  decide

/-- A concrete event trace for the pool witnesses: both workers load,
then worker 0 receives batch 7. -/
def introTrace : List PoolEvent :=
  [.loadOk 0, .loadOk 1, .dispatch 0 7]

/-! ### Claim theorems -/

/-- C1: for every executed batch, the result has exactly one row per
request (results length equals request count, and every per-key forward
matrix has one row per request), and row `i` answers request `i` in the
order the requests were added: its `requestId` is the id of request `i`
and its per-feature rows are the pooled embeddings of request `i`'s own
identifier lists. -/
theorem claim_C1_result_order (emb : String → Nat → List Int) (dim : Nat)
    (keys : List String) (reqs : List Request) (hkeys : keys ≠ []) :
    (executeBatch emb dim keys reqs).length = reqs.length ∧
    (∀ kv ∈ modelForward emb dim (mkKJT keys reqs), kv.snd.length = reqs.length) ∧
    ∀ (i : Nat) (h : i < reqs.length)
      (h2 : i < (executeBatch emb dim keys reqs).length),
      ((executeBatch emb dim keys reqs).get ⟨i, h2⟩).requestId
          = (reqs.get ⟨i, h⟩).id ∧
      ((executeBatch emb dim keys reqs).get ⟨i, h2⟩).outputs
          = keys.map (fun k =>
              (k, sumBag (emb k) dim ((reqs.get ⟨i, h⟩).idsFor k))) := by
  refine ⟨result_length emb dim keys reqs, ?_, ?_⟩
  · intro kv hkv
    rw [modelForward_mkKJT emb dim keys reqs hkeys] at hkv
    obtain ⟨k, _, rfl⟩ := List.mem_map.mp hkv
    simp
  · intro i h h2
    rw [result_row emb dim keys reqs hkeys i h h2]
    exact ⟨rfl, rfl⟩

theorem claim_C1_witness :
    (["product"] : List String) ≠ [] ∧
    (executeBatch introEmb 1 ["product"] introBatchRequests).length
        = introBatchRequests.length ∧
    ((executeBatch introEmb 1 ["product"] introBatchRequests).get
        ⟨1, by decide⟩).requestId
      = (introBatchRequests.get ⟨1, by decide⟩).id := by
  have h := claim_C1_result_order introEmb 1 ["product"] introBatchRequests
    (by decide)
  exact ⟨by decide, h.1, (h.2.2 1 (by decide) (by decide)).1⟩

/-- C2: for the spec's scenario — three requests whose `product` lists
are `[101,202]`, `[]`, `[303]` — closing at batch size 3 produces exactly
one feature batch (of all three requests, in order), its offsets encoding
is `[0, 2, 2, 3]`, and execution yields exactly 3 result rows carrying the
three request ids in submission order. -/
theorem claim_C2_intro_scenario :
    coordinatorBatches 3 introBatchRequests
        = [(["product"], introBatchRequests)] ∧
    offsetsOf (mkKJT ["product"] introBatchRequests).lengths = [0, 2, 2, 3] ∧
    (executeBatch introEmb 1 ["product"] introBatchRequests).map
        ResultRow.requestId
      = [1, 2, 3] := by
  decide

/-- C3: every feature batch the coordinator constructs satisfies the
feature-batch invariants: the offsets encoding of its KJT is monotonically
non-decreasing, its final offset is the sum of the per-request lengths,
that total equals the number of concatenated identifier values, and every
request in the batch has exactly the batch's feature-key schema. -/
theorem claim_C3_featureBatch_invariants (B : Nat) (reqs : List Request)
    (batch : List String × List Request)
    (hb : batch ∈ coordinatorBatches B reqs) :
    List.Chain' (· ≤ ·) (offsetsOf (mkKJT batch.fst batch.snd).lengths) ∧
    (offsetsOf (mkKJT batch.fst batch.snd).lengths).getLast?
        = some (mkKJT batch.fst batch.snd).lengths.sum ∧
    (mkKJT batch.fst batch.snd).values.length
        = (mkKJT batch.fst batch.snd).lengths.sum ∧
    ∀ r ∈ batch.snd, r.schema = batch.fst := by
  refine ⟨scanl_add_chain 0 _, ?_, mkKJT_values_length _ _,
    coordinatorBatches_schema B reqs batch hb⟩
  have h := scanl_add_getLastQ 0 (mkKJT batch.fst batch.snd).lengths
  simpa [offsetsOf] using h

theorem claim_C3_witness :
    (["product"], introBatchRequests) ∈ coordinatorBatches 3 introBatchRequests ∧
    List.Chain' (· ≤ ·)
      (offsetsOf (mkKJT ["product"] introBatchRequests).lengths) := by
  have h := claim_C3_featureBatch_invariants 3 introBatchRequests
    (["product"], introBatchRequests) (by decide)
  exact ⟨by decide, h.1⟩

/-- C4: for a run of `N` requests submitted to one schema group faster
than the wait timer, with maximum batch size `B > 0`, the coordinator
dispatches exactly `⌈N / B⌉` batches and no dispatched batch holds more
than `B` requests. -/
theorem claim_C4_batch_count (B : Nat) (hB : 0 < B) (reqs : List Request) :
    (chunk B reqs).length = reqs.length ⌈/⌉ B ∧
    ∀ c ∈ chunk B reqs, c.length ≤ B := by
  refine ⟨?_, chunk_size_le B reqs⟩
  rw [Nat.ceilDiv_eq_add_pred_div]
  exact chunk_length_eq B (by omega) reqs

theorem claim_C4_witness :
    0 < 2 ∧
    ((chunk 2 introBatchRequests).length = introBatchRequests.length ⌈/⌉ 2 ∧
      ∀ c ∈ chunk 2 introBatchRequests, c.length ≤ 2) :=
  ⟨by decide, claim_C4_batch_count 2 (by decide) introBatchRequests⟩

/-- C5: in every pool state reachable from startup, a worker is `Busy`
exactly while it holds its (at most one, by the `Option` shape of the
handle) in-flight batch; dispatching to a worker whose batch has not
completed leaves the pool unchanged (no second batch is ever assigned);
and `acquire` only ever hands out `Ready` workers. -/
theorem claim_C5_single_inflight (devices : List Nat) (es : List PoolEvent)
    (w b : Nat) (hw : w < (run (initPool devices) es).length) :
    (((run (initPool devices) es).get ⟨w, hw⟩).liveness = .Busy
      ↔ ((run (initPool devices) es).get ⟨w, hw⟩).inflight ≠ none) ∧
    (((run (initPool devices) es).get ⟨w, hw⟩).inflight ≠ none →
      step (run (initPool devices) es) (.dispatch w b)
        = run (initPool devices) es) ∧
    (∀ i, acquire (run (initPool devices) es) = some i →
      ∃ hi : i < (run (initPool devices) es).length,
        ((run (initPool devices) es).get ⟨i, hi⟩).liveness = .Ready) := by
  have hinv : ∀ wk ∈ run (initPool devices) es, WorkerInv wk :=
    run_preserves_inv _ es (initPool_inv devices)
  have hw_inv : WorkerInv ((run (initPool devices) es).get ⟨w, hw⟩) :=
    hinv _ (List.get_mem _ _ hw)
  refine ⟨hw_inv, ?_, fun i hi => acquire_ready _ i hi⟩
  intro hin
  simp only [step, List.getElem?_eq_getElem hw]
  rw [if_neg (fun hcontra => hin hcontra.2)]

theorem claim_C5_witness :
    0 < (run (initPool [0, 1]) introTrace).length ∧
    (((run (initPool [0, 1]) introTrace).get ⟨0, by decide⟩).liveness = .Busy
      ↔ ((run (initPool [0, 1]) introTrace).get ⟨0, by decide⟩).inflight
          ≠ none) := by
  have h := claim_C5_single_inflight [0, 1] introTrace 0 9 (by decide)
  exact ⟨by decide, h.1⟩

/-- C6: when the dispatch queue is at capacity, the next closing batch is
rejected immediately with `QueueFullError`, a retryable error of explicit
"overloaded" kind; in all cases a batch is either appended intact to the
queue or rejected with `QueueFullError` (never silently dropped), and no
coordinator batch exceeds the configured maximum size. -/
theorem claim_C6_queue_backpressure (q : DispatchQueue) (b : List Request)
    (hfull : q.pending.length = q.capacity) :
    enqueueBatch q b = .rejected .queueFull ∧
    ErrorKind.retryable .queueFull = true ∧
    ErrorKind.overloaded .queueFull = true ∧
    (∀ k : ErrorKind, k.overloaded = true → k = .queueFull) ∧
    (∀ (q2 : DispatchQueue) (b2 : List Request),
      (∃ q', enqueueBatch q2 b2 = .accepted q' ∧
          q'.pending = q2.pending ++ [b2] ∧ q'.capacity = q2.capacity) ∨
        (enqueueBatch q2 b2 = .rejected .queueFull ∧
          q2.capacity ≤ q2.pending.length)) ∧
    (∀ (B : Nat) (reqs : List Request) (batch : List String × List Request),
      batch ∈ coordinatorBatches B reqs → batch.snd.length ≤ B) := by
  refine ⟨?_, rfl, rfl, ?_, ?_, ?_⟩
  · unfold enqueueBatch
    rw [if_neg (by omega)]
  · intro k hk
    cases k <;> simp [ErrorKind.overloaded] at hk ⊢
  · intro q2 b2
    by_cases hlt : q2.pending.length < q2.capacity
    · left
      refine ⟨{ q2 with pending := q2.pending ++ [b2] }, ?_, rfl, rfl⟩
      unfold enqueueBatch
      rw [if_pos hlt]
    · right
      refine ⟨?_, by omega⟩
      unfold enqueueBatch
      rw [if_neg hlt]
  · exact fun B reqs batch hb => coordinatorBatches_size_le B reqs batch hb

theorem claim_C6_witness :
    ({ capacity := 1, pending := [[introReq1]] } : DispatchQueue).pending.length
        = ({ capacity := 1, pending := [[introReq1]] } : DispatchQueue).capacity ∧
    enqueueBatch { capacity := 1, pending := [[introReq1]] } [introReq2]
        = .rejected .queueFull := by
  have h := claim_C6_queue_backpressure
    { capacity := 1, pending := [[introReq1]] } [introReq2] (by decide)
  exact ⟨by decide, h.1⟩

/-- C7: a timed-out execution fails the whole batch — every request in it
resolves to the timeout error kind, with no partial per-row results — the
executing worker becomes `Failed` but stays in the pool (pool size is
unchanged), and `acquire` never returns the failed worker. -/
theorem claim_C7_timeout_containment (emb : String → Nat → List Int)
    (dim : Nat) (keys : List String) (reqs : List Request)
    (p : List WorkerHandle) (w : Nat) (hw : w < p.length)
    (hbusy : (p.get ⟨w, hw⟩).liveness = .Busy) :
    (step p (.timeout w)).length = p.length ∧
    (step p (.timeout w))[w]?
        = some { device := (p.get ⟨w, hw⟩).device
                 liveness := .Failed
                 inflight := none } ∧
    (∀ i, acquire (step p (.timeout w)) = some i → i ≠ w) ∧
    (settleBatch emb dim keys reqs .timedOut).length = reqs.length ∧
    ∀ o ∈ settleBatch emb dim keys reqs .timedOut,
      o.snd = .err .batchTimeout := by
  have hstep := step_timeout_eq p w hw hbusy
  have hq : (step p (.timeout w))[w]?
      = some { device := (p.get ⟨w, hw⟩).device
               liveness := .Failed
               inflight := none } := by
    rw [hstep]
    exact List.getElem?_set_self hw
  refine ⟨?_, hq, ?_, ?_, ?_⟩
  · rw [hstep, List.length_set]
  · intro i hi
    obtain ⟨hlt, hready⟩ := acquire_ready _ i hi
    intro hcontra
    subst hcontra
    have h2 : (step p (.timeout i))[i]?
        = some ((step p (.timeout i)).get ⟨i, hlt⟩) :=
      List.getElem?_eq_getElem hlt
    rw [hq] at h2
    have h3 := Option.some.inj h2
    rw [← h3] at hready
    simp at hready
  · simp only [settleBatch, List.length_map]
  · intro o ho
    simp only [settleBatch] at ho
    obtain ⟨r, _, rfl⟩ := List.mem_map.mp ho
    rfl

theorem claim_C7_witness :
    0 < ([{ device := 0, liveness := .Busy, inflight := some 5 }]
        : List WorkerHandle).length ∧
    (([{ device := 0, liveness := .Busy, inflight := some 5 }]
        : List WorkerHandle).get ⟨0, by decide⟩).liveness = .Busy ∧
    (step [{ device := 0, liveness := .Busy, inflight := some 5 }]
        (.timeout 0)).length = 1 := by
  have h := claim_C7_timeout_containment introEmb 1 ["product"]
    introBatchRequests [{ device := 0, liveness := .Busy, inflight := some 5 }]
    0 (by decide) (by decide)
  exact ⟨by decide, by decide, h.1⟩

/-- C8: settling a batch resolves every request to exactly one outcome —
one entry per request, and (when request ids are distinct) each request id
appears in exactly one entry — and a batch-level failure fans out the same
error kind to every request future of the batch. -/
theorem claim_C8_exactly_one (emb : String → Nat → List Int) (dim : Nat)
    (keys : List String) (reqs : List Request) (out : ExecOutcome)
    (hnd : (reqs.map Request.id).Nodup) :
    (settleBatch emb dim keys reqs out).length = reqs.length ∧
    (∀ r ∈ reqs,
      ((settleBatch emb dim keys reqs out).filter
          (fun o => o.fst == r.id)).length = 1) ∧
    (out = .execError →
      ∀ o ∈ settleBatch emb dim keys reqs out, o.snd = .err .execution) ∧
    (out = .timedOut →
      ∀ o ∈ settleBatch emb dim keys reqs out, o.snd = .err .batchTimeout) := by
  refine ⟨?_, ?_, ?_, ?_⟩
  · cases out with
    | success =>
      simp only [settleBatch, List.length_map]
      exact result_length emb dim keys reqs
    | execError => simp [settleBatch]
    | timedOut => simp [settleBatch]
  · intro r hr
    have hids := settleBatch_ids emb dim keys reqs out
    apply filter_key_count
    · rw [hids]
      exact hnd
    · rw [hids]
      exact List.mem_map_of_mem Request.id hr
  · intro hout o ho
    subst hout
    simp only [settleBatch] at ho
    obtain ⟨r, _, rfl⟩ := List.mem_map.mp ho
    rfl
  · intro hout o ho
    subst hout
    simp only [settleBatch] at ho
    obtain ⟨r, _, rfl⟩ := List.mem_map.mp ho
    rfl

theorem claim_C8_witness :
    (introBatchRequests.map Request.id).Nodup ∧
    (settleBatch introEmb 1 ["product"] introBatchRequests .execError).length
        = introBatchRequests.length := by
  have h := claim_C8_exactly_one introEmb 1 ["product"] introBatchRequests
    .execError (by decide)
  exact ⟨by decide, h.1⟩

/-- C9: the KJT minibatch built from a batch of requests carries exactly
`len(keys) * batch_size` length entries (one per feature key per example),
the batch size is recovered as `len(lengths) / len(keys)` (the notebook's
derivation), and it equals the number of requests in the batch. -/
theorem claim_C9_kjt_batchSize (keys : List String) (reqs : List Request)
    (hkeys : keys ≠ []) :
    (mkKJT keys reqs).lengths.length
        = keys.length * (mkKJT keys reqs).batchSize ∧
    (mkKJT keys reqs).batchSize
        = (mkKJT keys reqs).lengths.length / keys.length ∧
    (mkKJT keys reqs).batchSize = reqs.length := by
  have hbs := mkKJT_batchSize keys reqs hkeys
  refine ⟨?_, rfl, hbs⟩
  rw [hbs, mkKJT_lengths_length]

theorem claim_C9_witness :
    (["product", "user"] : List String) ≠ [] ∧
    (mkKJT ["product", "user"] nbRequests).batchSize = 3 := by
  have h := claim_C9_kjt_batchSize ["product", "user"] nbRequests (by decide)
  exact ⟨by decide, h.2.2⟩

/-- C10: a request whose identifier list for a sparse feature is empty
still gets a result row for that feature, and the sum-pooled row is the
all-zero vector of the embedding dimension — an empty bag pools to zero
rather than erroring or being skipped. -/
theorem claim_C10_empty_bag (emb : String → Nat → List Int) (dim : Nat)
    (keys : List String) (reqs : List Request) (hkeys : keys ≠ [])
    (i : Nat) (h : i < reqs.length)
    (h2 : i < (executeBatch emb dim keys reqs).length)
    (k : String) (hk : k ∈ keys)
    (hempty : (reqs.get ⟨i, h⟩).idsFor k = []) :
    (k, List.replicate dim (0 : Int))
      ∈ ((executeBatch emb dim keys reqs).get ⟨i, h2⟩).outputs := by
  rw [result_row emb dim keys reqs hkeys i h h2]
  refine List.mem_map.mpr ⟨k, hk, ?_⟩
  rw [hempty]
  rfl

theorem claim_C10_witness :
    ((["product"] : List String) ≠ [] ∧
      (introBatchRequests.get ⟨1, by decide⟩).idsFor "product" = []) ∧
    ("product", List.replicate 1 (0 : Int))
      ∈ ((executeBatch introEmb 1 ["product"] introBatchRequests).get
          ⟨1, by decide⟩).outputs := by
  refine ⟨⟨by decide, by decide⟩, ?_⟩
  exact claim_C10_empty_bag introEmb 1 ["product"] introBatchRequests
    (by decide) 1 (by decide) (by decide) "product" (by decide) (by decide)

end Torchrec
